import Mathlib

/-!
Shallow embedding of the `c-hashmap` header-only library
(`src/include/chashmap/hashmap.h` and `src/include/chashmap/_hashmap.h`).

The library is a macro-generated, separately-chained hash table with an
auxiliary doubly linked "entry order" list threading all entries in
insertion order.  We instantiate the generic macros at the integral key
type (`long long`) and an integral value type, which is the instantiation
the specification's claims are about; the selected hash function is then
`_hash_long_long`.

Modelling decisions, in order of appearance in the source:

* `size_t` values (`_table_size`, `_num_entries`, hash results) are
  modelled as `Nat`.  `size_t` is 64 bits on every platform this GNU-C
  source compiles for; the only places where wrap-around of a `size_t`
  could occur (`_table_size * 2` and `_num_entries++` reaching `2 ^ 64`)
  are unreachable in any real execution (they would require about
  `2 ^ 63` buckets to have been successfully calloc'ed, resp. `2 ^ 64`
  calls of `HASHMAP_PUT`), so no explicit reduction mod `2 ^ 64` is
  inserted there.  Where the conversion to `size_t` does matter — the
  implicit conversion of a negative `long long` key inside
  `_hash_long_long` — it is modelled explicitly (reduction mod `2 ^ 64`).

* `calloc` results are driven by an explicit allocation oracle, a
  `List Bool` consumed left to right: the head decides whether the next
  `calloc` succeeds.  An exhausted (empty) oracle means every remaining
  allocation succeeds, so the oracle `[]` is the "no allocation failure"
  run.

* Every mutating operation additionally records a trace of allocation
  and `free` events (`Event`), used to state claims about what is
  allocated or freed and in which order.

* The bucket chains (`_t_<entry> *` linked by `_next_entry`) become
  `List Entry`; the entry table (`_t_<entry> **`) becomes
  `List (List Entry)`; the doubly linked entry-order list becomes the
  list of the keys of the entries its nodes reference, in list order
  (head to tail).  A node's `_table_entry` pointer dereference is
  modelled by looking the node's key up among the referenced table's
  entries (`derefEntry`); in every reachable state each list node
  references exactly the unique live entry holding its key, so this is
  the functional reading of the pointer graph.
-/

/-- C `size_t` is 64 bits wide on the supported platforms. -/
def SIZE_T_MOD : Nat := 2 ^ 64

/-- `_hash_long_long` from `_hashmap.h`:
`static inline size_t _hash_long_long(size_t table_size, long long val) \x7b return val % table_size; \x7d`.
By C's usual arithmetic conversions, with 64-bit `size_t` the signed
`long long` operand `val` is converted to the unsigned 64-bit type
(wrapping mod `2 ^ 64`) before `%`, and the remainder is computed on
unsigned values. -/
def _hash_long_long (table_size : Nat) (val : Int) : Nat :=
  (val % (SIZE_T_MOD : Int)).toNat % table_size

/-- `_DEFAULT_TABLE_SIZE` from `_hashmap.h`. -/
def _DEFAULT_TABLE_SIZE : Nat := 15

/-- One key-value entry of the table (the `HASHMAP_ENTRY` struct embedded in
the internal `_t_<entry>` chain node).  The chain pointer `_next_entry` is
modelled by the position in the bucket's `List Entry`, and the `_ll_node`
back-pointer by the key lookup described in the file comment. -/
structure Entry where
  key : Int
  value : Int
deriving Repr, DecidableEq

/-- A bucket's collision chain, head first (the cell `_entry_table[i]`
followed along `_next_entry`). -/
abbrev Bucket := List Entry

/-- The hashmap struct generated by `HASHMAP(t_name, entry_t_name, k_type)`.
`_entry_ll` holds, head to tail, the key of the entry referenced by each
doubly-linked-list node. -/
structure MapState where
  _table_size : Nat
  _num_entries : Nat
  _entry_ll : List Int
  _entry_table : List Bucket
deriving Repr, DecidableEq

/-- Allocation and deallocation events, in program order. -/
inductive Event where
  /-- the `calloc` of a new table `Entry` inside `_HASHMAP_TABLE_PUT`,
  with its outcome -/
  | allocEntry (ok : Bool)
  /-- the `calloc` of a new entry-order list node inside `_HASHMAP_LL_PUT`,
  with its outcome -/
  | allocNode (ok : Bool)
  /-- the `calloc` of a new bucket table inside `_HASHMAP_INCREASE_SIZE`,
  with its outcome -/
  | allocTable (ok : Bool)
  /-- the `free(_table_entry)` of an old entry inside `_HASHMAP_REHASH_TABLE` -/
  | freeEntry
  /-- the `free(_old_table)` inside `_HASHMAP_INCREASE_SIZE` -/
  | freeOldTable
deriving Repr, DecidableEq

/-- Consume one answer from the allocation oracle; an exhausted oracle
answers `true` (success). -/
def takeAlloc : List Bool → Bool × List Bool
  | [] => (true, [])
  | b :: rest => (b, rest)

/-- Result of an operation returning an `int` status. -/
structure IntOut where
  ret : Int
  st : MapState
  orc : List Bool
  evs : List Event
deriving Repr, DecidableEq

/-- Result of `_HASHMAP_TABLE_PUT`, whose C value is an entry pointer that
is `NULL` (`none`) on update-in-place and on allocation failure. -/
structure PutOut where
  ret : Option Entry
  st : MapState
  orc : List Bool
  evs : List Event
deriving Repr, DecidableEq

/-- The chain walk of `_HASHMAP_FIND_ENTRY_RECORD` finds a matching record:
the cursor stops at a non-`NULL` slot exactly when some chain entry's key
equals `k`. -/
def chainHas (chain : Bucket) (k : Int) : Bool :=
  chain.any (fun e => e.key == k)

/-- The update branch of `_HASHMAP_TABLE_PUT`: the cursor returned by
`_HASHMAP_FIND_ENTRY_RECORD` points at the first chain entry whose key
equals `k`, and `(*_entry_record)->_entry.value = v` overwrites its value
in place. -/
def updateFirst : Bucket → Int → Int → Bucket
  | [], _, _ => []
  | e :: rest, k, v =>
    if e.key == k then { e with value := v } :: rest
    else e :: updateFirst rest k v

/-- `_HASHMAP_TABLE_PUT(m, k, v)` from `_hashmap.h` (lines 319-359):
search the chain at `hash(table_size, k)`; if a record with key `k`
exists, overwrite its value in place and return `NULL`; otherwise
`calloc` a fresh entry, append it at the end of that chain, and return
the new entry (or `NULL` if the `calloc` failed, leaving the table
untouched). -/
def _HASHMAP_TABLE_PUT (m : MapState) (k v : Int) (orc : List Bool) : PutOut :=
  let h := _hash_long_long m._table_size k
  let chain := m._entry_table.getD h []
  if chainHas chain k then
    { ret := none
      st := { m with _entry_table := m._entry_table.set h (updateFirst chain k v) }
      orc := orc
      evs := [] }
  else
    let (ok, rest) := takeAlloc orc
    if ok then
      let newE : Entry := { key := k, value := v }
      { ret := some newE
        st := { m with _entry_table := m._entry_table.set h (chain ++ [newE]) }
        orc := rest
        evs := [Event.allocEntry true] }
    else
      { ret := none, st := m, orc := rest, evs := [Event.allocEntry false] }

/-- `_HASHMAP_LL_PUT(m, entry_ptr)` from `_hashmap.h` (lines 259-275):
`calloc` a list node referencing the given entry and append it at the
tail of the entry-order list (`_HASHMAP_LL_ADD_TAIL`); return `0` on
success and `-1` if the `calloc` failed (the list is then untouched). -/
def _HASHMAP_LL_PUT (m : MapState) (e : Entry) (orc : List Bool) : IntOut :=
  let (ok, rest) := takeAlloc orc
  if ok then
    { ret := 0
      st := { m with _entry_ll := m._entry_ll ++ [e.key] }
      orc := rest
      evs := [Event.allocNode true] }
  else
    { ret := -1, st := m, orc := rest, evs := [Event.allocNode false] }

/-- Dereference a list node's `_table_entry` pointer: the entry the node
references is the (in reachable states unique) entry with the node's key
among the given table's chains.  The default is never reached in a
reachable state. -/
def derefEntry (old_table : List Bucket) (k : Int) : Entry :=
  (old_table.flatten.find? (fun e => e.key == k)).getD { key := k, value := 0 }

/-- The `while (_ll_node_cursor != NULL)` loop of `_HASHMAP_REHASH_TABLE`
(lines 370-398), walking the node keys head to tail: read the node's old
entry's key and value, `_HASHMAP_TABLE_PUT` them into the current (new)
table; on a `NULL` result stop with `-1`; otherwise re-point the node,
`free` the old entry, and continue. -/
def rehashLoop (old_table : List Bucket) : List Int → MapState → List Bool → IntOut
  | [], m, orc => { ret := 0, st := m, orc := orc, evs := [] }
  | k :: rest, m, orc =>
    let oldE := derefEntry old_table k
    let p := _HASHMAP_TABLE_PUT m k oldE.value orc
    match p.ret with
    | none => { ret := -1, st := p.st, orc := p.orc, evs := p.evs }
    | some _ =>
      let r := rehashLoop old_table rest p.st p.orc
      { ret := r.ret, st := r.st, orc := r.orc
        evs := p.evs ++ [Event.freeEntry] ++ r.evs }

/-- `_HASHMAP_REHASH_TABLE(m)` from `_hashmap.h` (lines 370-398).
`old_table` is the table whose entries the list nodes still reference
(the caller `_HASHMAP_INCREASE_SIZE` saved it before swapping in the new
one). -/
def _HASHMAP_REHASH_TABLE (old_table : List Bucket) (m : MapState) (orc : List Bool) : IntOut :=
  rehashLoop old_table m._entry_ll m orc

/-- `_HASHMAP_INCREASE_SIZE(m)` from `_hashmap.h` (lines 409-429):
save the old table, `calloc` a table of double the size; on failure
return `-1` with nothing changed; on success install the new size and
table, run `_HASHMAP_REHASH_TABLE`, then `free` the old table
unconditionally, and return the rehash result. -/
def _HASHMAP_INCREASE_SIZE (m : MapState) (orc : List Bool) : IntOut :=
  let old_table := m._entry_table
  let new_table_size := m._table_size * 2
  let (ok, rest) := takeAlloc orc
  if ok then
    let m1 : MapState :=
      { m with _table_size := new_table_size
               _entry_table := List.replicate new_table_size [] }
    let r := _HASHMAP_REHASH_TABLE old_table m1 rest
    { ret := r.ret, st := r.st, orc := r.orc
      evs := Event.allocTable true :: (r.evs ++ [Event.freeOldTable]) }
  else
    { ret := -1, st := m, orc := rest, evs := [Event.allocTable false] }

/-- The load-factor test of `HASHMAP_PUT`:
`(double) _num_entries / _table_size >= _LOAD_FACTOR_LIM` with
`_LOAD_FACTOR_LIM = 0.75`.  For all reachable sizes (far below `2 ^ 52`)
the `double` comparison is exact and equals this rational comparison. -/
def growthTrigger (m : MapState) : Bool :=
  3 * m._table_size ≤ 4 * m._num_entries

/-- The insertion block that `HASHMAP_PUT` duplicates textually in both
of its branches: `_HASHMAP_TABLE_PUT`, then (only when it returned a new
entry) `_HASHMAP_LL_PUT`; `_return_val` is `0` unless `_HASHMAP_LL_PUT`
ran and failed. -/
def putBody (m : MapState) (k v : Int) (orc : List Bool) : IntOut :=
  let p := _HASHMAP_TABLE_PUT m k v orc
  match p.ret with
  | some e =>
    let l := _HASHMAP_LL_PUT p.st e p.orc
    { ret := if l.ret = 0 then 0 else -1, st := l.st, orc := l.orc
      evs := p.evs ++ l.evs }
  | none => { ret := 0, st := p.st, orc := p.orc, evs := p.evs }

/-- `HASHMAP_PUT(m, k, v)` from `hashmap.h` (lines 127-158): compute the
load factor; if it reaches the limit, `_HASHMAP_INCREASE_SIZE` first and
only insert when that returned `0`; otherwise insert directly; in every
case finish with `(m)->_num_entries++`. -/
def HASHMAP_PUT (m : MapState) (k v : Int) (orc : List Bool) : IntOut :=
  if growthTrigger m then
    let g := _HASHMAP_INCREASE_SIZE m orc
    if g.ret = 0 then
      let b := putBody g.st k v g.orc
      { ret := b.ret, st := { b.st with _num_entries := b.st._num_entries + 1 }
        orc := b.orc, evs := g.evs ++ b.evs }
    else
      { ret := -1, st := { g.st with _num_entries := g.st._num_entries + 1 }
        orc := g.orc, evs := g.evs }
  else
    let b := putBody m k v orc
    { ret := b.ret, st := { b.st with _num_entries := b.st._num_entries + 1 }
      orc := b.orc, evs := b.evs }

/-- `HASHMAP_GET(result, m, k)` from `hashmap.h` (lines 173-195): walk the
chain at `hash(table_size, k)`; on the first entry whose key equals `k`
record its value and stop; `*result` is assigned only when the key was
found.  The returned pair is (`_return_val`, the final contents of
`*result` given its prior contents `result`). -/
def HASHMAP_GET (result : Int) (m : MapState) (k : Int) : Bool × Int :=
  let h := _hash_long_long m._table_size k
  let chain := m._entry_table.getD h []
  match chain.find? (fun e => e.key == k) with
  | some e => (true, e.value)
  | none => (false, result)

/-- Result of `HASHMAP_INIT`. -/
structure InitOut where
  ret : Int
  st : MapState
  orc : List Bool
deriving Repr, DecidableEq

/-- `HASHMAP_INIT(m)` from `hashmap.h` (lines 87-110): set the default
size, zero entries, empty list, select `_hash_long_long` for the integral
key instantiation, and `calloc` the zeroed table of `_DEFAULT_TABLE_SIZE`
cells; return `0`, or `-1` when that `calloc` failed (the struct fields
are assigned either way; a failed init must not be used, and no claim
uses one). -/
def HASHMAP_INIT (orc : List Bool) : InitOut :=
  let (ok, rest) := takeAlloc orc
  { ret := if ok then 0 else -1
    st := { _table_size := _DEFAULT_TABLE_SIZE
            _num_entries := 0
            _entry_ll := []
            _entry_table := List.replicate _DEFAULT_TABLE_SIZE [] }
    orc := rest }

/-- The freshly initialised empty map (successful `HASHMAP_INIT`). -/
def initSt : MapState := (HASHMAP_INIT []).st

/-- One operation of the public mutating surface used by the claims. -/
inductive Op where
  | put (k v : Int)
  | get (k : Int)
deriving Repr, DecidableEq

/-- Run one operation with a fully successful allocation oracle.
`HASHMAP_GET` takes no mutable reference to the table and produces only
its `(found, result)` pair, so it leaves the state as it is. -/
def stepOp (m : MapState) : Op → MapState
  | Op.put k v => (HASHMAP_PUT m k v []).st
  | Op.get _ => m

/-- Run a sequence of operations from a state. -/
def runOpsFrom (m : MapState) (ops : List Op) : MapState :=
  ops.foldl stepOp m

/-- Run a sequence of operations from the freshly initialised map. -/
def runOps (ops : List Op) : MapState :=
  runOpsFrom initSt ops

/-- Run a sequence of puts (key-value pairs) from a state, each with a
fully successful allocation oracle. -/
def runPutsFrom (m : MapState) (ops : List (Int × Int)) : MapState :=
  ops.foldl (fun m' p => (HASHMAP_PUT m' p.1 p.2 []).st) m

/-- Run a sequence of puts from the freshly initialised map. -/
def runPuts (ops : List (Int × Int)) : MapState :=
  runPutsFrom initSt ops

/-- Number of `put` operations in a sequence. -/
def countPuts : List Op → Nat
  | [] => 0
  | Op.put _ _ :: r => countPuts r + 1
  | Op.get _ :: r => countPuts r

/-- The keys of all entries of a table, in bucket-then-chain order. -/
def keysOf (t : List Bucket) : List Int :=
  t.flatten.map Entry.key

/-- The keys of all entries reachable by walking every bucket chain. -/
def tableKeys (m : MapState) : List Int :=
  keysOf m._entry_table

/-- The total number of entries reachable by walking every bucket chain. -/
def tableCount (m : MapState) : Nat :=
  m._entry_table.flatten.length

/-- Number of live entries holding the key `k`. -/
def countKey (m : MapState) (k : Int) : Nat :=
  (tableKeys m).count k

/-- The value the table associates to `k`: what the chain walk at `k`'s
bucket finds (the observation `HASHMAP_GET` makes). -/
def getValue? (m : MapState) (k : Int) : Option Int :=
  ((m._entry_table.getD (_hash_long_long m._table_size k) []).find?
      (fun e => e.key == k)).map Entry.value

/-- Every entry sits in the bucket its key hashes to. -/
def placedOK (m : MapState) : Prop :=
  ∀ i, ∀ e ∈ m._entry_table.getD i [], _hash_long_long m._table_size e.key = i

/-- Well-formedness of a map state: the shape fields agree, entries are
in their home buckets, keys are pairwise distinct across the table, and
the entry-order list references exactly the table's entries. -/
structure WF (m : MapState) : Prop where
  size_pos : 0 < m._table_size
  len_eq : m._entry_table.length = m._table_size
  placed : placedOK m
  nodup : (tableKeys m).Nodup
  perm : m._entry_ll.Perm (tableKeys m)

/-- The value of the most recent pair for `k` in a put sequence, starting
from a base observation. -/
def lastValueFrom (base : Option Int) (ops : List (Int × Int)) (k : Int) : Option Int :=
  ops.foldl (fun acc p => if p.1 = k then some p.2 else acc) base

/-- The value of the most recent put whose key was `k`. -/
def lastValue (ops : List (Int × Int)) (k : Int) : Option Int :=
  lastValueFrom none ops k

/-- A concrete one-entry map (key 0, value 5, in its home bucket), used
as input for concrete evaluations. -/
def mOneEntry : MapState :=
  { _table_size := 15, _num_entries := 1, _entry_ll := [0]
    _entry_table := (List.replicate 15 ([] : Bucket)).set 0 [{ key := 0, value := 5 }] }

/-- A concrete map whose counter has reached 12 of 15: its load factor
12 / 15 = 0.8 is past the growth limit. -/
def mTwelve : MapState :=
  { _table_size := 15, _num_entries := 12, _entry_ll := []
    _entry_table := List.replicate 15 [] }

/-- The bucket chain `k` hashes into. -/
def bucketOf (m : MapState) (k : Int) : Bucket :=
  m._entry_table.getD (_hash_long_long m._table_size k) []

/-- The structural part of well-formedness: positive size, table length
matching the size field, every entry in its home bucket. -/
structure Shape (m : MapState) : Prop where
  size_pos : 0 < m._table_size
  len_eq : m._entry_table.length = m._table_size
  placed : placedOK m

/-- The state right after `_HASHMAP_INCREASE_SIZE` has installed the
doubled, freshly zeroed table (before rehashing). -/
def growState (m : MapState) : MapState :=
  { m with _table_size := m._table_size * 2
           _entry_table := List.replicate (m._table_size * 2) [] }

/-! ### List helper lemmas -/

theorem getD_set_self (l : List α) (i : Nat) (x : α) (d : α) (h : i < l.length) :
    (l.set i x).getD i d = x := by
  simp [List.getD_eq_getElem?_getD, List.getElem?_set_self h]

theorem getD_set_ne (l : List α) (i j : Nat) (x : α) (d : α) (h : i ≠ j) :
    (l.set i x).getD j d = l.getD j d := by
  simp [List.getD_eq_getElem?_getD, List.getElem?_set_ne h]

theorem getD_eq_getElem (l : List α) (i : Nat) (d : α) (h : i < l.length) :
    l.getD i d = l[i] := by
  simp [List.getD_eq_getElem?_getD, List.getElem?_eq_getElem h]

theorem getD_eq_default (l : List α) (i : Nat) (d : α) (h : l.length ≤ i) :
    l.getD i d = d := by
  simp [List.getD_eq_getElem?_getD, List.getElem?_eq_none h]

theorem list_decomp (l : List α) (i : Nat) (d : α) (h : i < l.length) :
    l = l.take i ++ l.getD i d :: l.drop (i + 1) := by
  conv_lhs => rw [← List.take_append_drop i l]
  rw [List.drop_eq_getElem_cons h, getD_eq_getElem l i d h]

theorem flatten_set (l : List (List α)) (i : Nat) (b : List α) (h : i < l.length) :
    (l.set i b).flatten = (l.take i).flatten ++ b ++ (l.drop (i + 1)).flatten := by
  rw [List.set_eq_take_cons_drop b h]
  simp

theorem flatten_decomp (l : List (List α)) (i : Nat) (h : i < l.length) :
    l.flatten = (l.take i).flatten ++ l.getD i [] ++ (l.drop (i + 1)).flatten := by
  conv_lhs => rw [list_decomp l i [] h]
  simp

theorem flatten_replicate_nil (n : Nat) :
    (List.replicate n ([] : List α)).flatten = [] := by
  induction n with
  | zero => simp
  | succ n ih => simp [List.replicate_succ, ih]

theorem mem_of_mem_getD (t : List (List α)) (i : Nat) (e : α)
    (h : e ∈ t.getD i []) : e ∈ t.flatten := by
  by_cases hi : i < t.length
  · rw [getD_eq_getElem t i [] hi] at h
    exact List.mem_flatten.mpr ⟨t[i], List.getElem_mem hi, h⟩
  · rw [getD_eq_default t i [] (Nat.le_of_not_lt hi)] at h
    cases h

/-! ### Key and chain helper lemmas -/

theorem chainHas_iff (chain : Bucket) (k : Int) :
    chainHas chain k = true ↔ ∃ e ∈ chain, e.key = k := by
  simp [chainHas, List.any_eq_true]

theorem keysOf_mem (t : List Bucket) (k : Int) :
    k ∈ keysOf t ↔ ∃ e ∈ t.flatten, e.key = k := by
  simp [keysOf, List.mem_flatten]
  tauto

theorem updateFirst_keys (chain : Bucket) (k v : Int) :
    (updateFirst chain k v).map Entry.key = chain.map Entry.key := by
  induction chain with
  | nil => rfl
  | cons e rest ih =>
    by_cases h : e.key = k
    · simp [updateFirst, h]
    · simp [updateFirst, h, ih]

theorem find?_updateFirst_self (chain : Bucket) (k v : Int)
    (h : chainHas chain k = true) :
    (updateFirst chain k v).find? (fun e => e.key == k) =
      some { key := k, value := v } := by
  induction chain with
  | nil => simp [chainHas] at h
  | cons e rest ih =>
    by_cases he : e.key = k
    · simp [updateFirst, he, List.find?]
    · have h' : chainHas rest k = true := by
        rcases (chainHas_iff _ _).mp h with ⟨e', he', hk⟩
        rcases List.mem_cons.mp he' with rfl | hmem
        · exact absurd hk he
        · exact (chainHas_iff _ _).mpr ⟨e', hmem, hk⟩
      simp [updateFirst, he, List.find?, ih h']

theorem find?_updateFirst_ne (chain : Bucket) (k v k' : Int) (hk : k' ≠ k) :
    (updateFirst chain k v).find? (fun e => e.key == k') =
      chain.find? (fun e => e.key == k') := by
  induction chain with
  | nil => rfl
  | cons e rest ih =>
    by_cases he : e.key = k
    · have hkk : (k == k') = false := beq_eq_false_iff_ne.mpr fun hc => hk hc.symm
      simp [updateFirst, he, List.find?, hkk]
    · by_cases he' : e.key = k'
      · simp [updateFirst, he, List.find?, he', hk]
      · simp [updateFirst, he, List.find?, beq_eq_false_iff_ne.mpr he', ih]

theorem key_unique (t : List Bucket) (hnd : (keysOf t).Nodup)
    (e1 e2 : Entry) (h1 : e1 ∈ t.flatten) (h2 : e2 ∈ t.flatten)
    (hk : e1.key = e2.key) : e1 = e2 := by
  have hnd' : (t.flatten.map Entry.key).Nodup := hnd
  exact List.inj_on_of_nodup_map hnd' h1 h2 hk

/-! ### Shape invariant and bucket access -/

theorem hash_lt (ts : Nat) (val : Int) (h : 0 < ts) : _hash_long_long ts val < ts :=
  Nat.mod_lt _ h

theorem getValue?_eq_find_bucket (m : MapState) (k : Int) :
    getValue? m k = ((bucketOf m k).find? (fun e => e.key == k)).map Entry.value := rfl

theorem find?_eq_none_of_not_chainHas (chain : Bucket) (k : Int)
    (h : chainHas chain k = false) :
    chain.find? (fun e => e.key == k) = none := by
  apply List.find?_eq_none.mpr
  intro e he hbe
  have : chainHas chain k = true := (chainHas_iff _ _).mpr ⟨e, he, by simpa using hbe⟩
  rw [h] at this
  cases this

theorem mem_tableKeys_iff_chainHas (m : MapState) (k : Int) (hs : Shape m) :
    k ∈ tableKeys m ↔ chainHas (bucketOf m k) k = true := by
  constructor
  · intro hk
    rcases (keysOf_mem _ _).mp hk with ⟨e, he, hek⟩
    rcases List.mem_flatten.mp he with ⟨b, hb, heb⟩
    rcases List.mem_iff_getElem.mp hb with ⟨i, hi, rfl⟩
    have hgd : m._entry_table.getD i [] = m._entry_table[i] :=
      getD_eq_getElem _ i [] hi
    have hplaced := hs.placed i e (by rw [hgd]; exact heb)
    have : _hash_long_long m._table_size k = i := by rw [← hek]; exact hplaced
    exact (chainHas_iff _ _).mpr ⟨e, by rw [bucketOf, this, hgd]; exact heb, hek⟩
  · intro hc
    rcases (chainHas_iff _ _).mp hc with ⟨e, he, hek⟩
    exact (keysOf_mem _ _).mpr ⟨e, mem_of_mem_getD _ _ _ he, hek⟩

theorem perm_append_snoc {α} [DecidableEq α] (A C B : List α) (x : α) :
    (A ++ (C ++ [x]) ++ B).Perm ((A ++ C ++ B) ++ [x]) := by
  apply List.perm_iff_count.mpr
  intro a
  simp [List.count_append, List.count_cons]

/-! ### `_HASHMAP_TABLE_PUT` characterizations -/

theorem table_put_update_eq (m : MapState) (k v : Int) (orc : List Bool)
    (hk : chainHas (bucketOf m k) k = true) :
    _HASHMAP_TABLE_PUT m k v orc =
      { ret := none
        st := { m with _entry_table :=
                         m._entry_table.set (_hash_long_long m._table_size k)
                           (updateFirst (bucketOf m k) k v) }
        orc := orc
        evs := [] } := by
  simp [_HASHMAP_TABLE_PUT, bucketOf] at hk ⊢
  simp [hk]

theorem table_put_fresh_eq (m : MapState) (k v : Int) (orc rest : List Bool)
    (hk : chainHas (bucketOf m k) k = false)
    (ho : takeAlloc orc = (true, rest)) :
    _HASHMAP_TABLE_PUT m k v orc =
      { ret := some { key := k, value := v }
        st := { m with _entry_table :=
                         m._entry_table.set (_hash_long_long m._table_size k)
                           (bucketOf m k ++ [{ key := k, value := v }]) }
        orc := rest
        evs := [Event.allocEntry true] } := by
  simp [_HASHMAP_TABLE_PUT, bucketOf] at hk ⊢
  simp [hk, ho]

theorem table_put_fail_eq (m : MapState) (k v : Int) (orc rest : List Bool)
    (hk : chainHas (bucketOf m k) k = false)
    (ho : takeAlloc orc = (false, rest)) :
    _HASHMAP_TABLE_PUT m k v orc =
      { ret := none, st := m, orc := rest, evs := [Event.allocEntry false] } := by
  simp [_HASHMAP_TABLE_PUT, bucketOf] at hk ⊢
  simp [hk, ho]

/-! ### Effect of the two `_HASHMAP_TABLE_PUT` mutations on keys, placement
and lookups -/

theorem key_mem_of_mem_updateFirst (chain : Bucket) (k v : Int) (e : Entry)
    (h : e ∈ updateFirst chain k v) : ∃ e0 ∈ chain, e0.key = e.key := by
  have hm : e.key ∈ (updateFirst chain k v).map Entry.key :=
    List.mem_map_of_mem _ h
  rw [updateFirst_keys] at hm
  rcases List.mem_map.mp hm with ⟨e0, he0, hk⟩
  exact ⟨e0, he0, hk⟩

theorem hash_bucket_lt (m : MapState) (k : Int) (hs : Shape m) :
    _hash_long_long m._table_size k < m._entry_table.length := by
  rw [hs.len_eq]
  exact hash_lt _ _ hs.size_pos

theorem keysOf_set_updateFirst (m : MapState) (k v : Int) (hs : Shape m) :
    keysOf (m._entry_table.set (_hash_long_long m._table_size k)
      (updateFirst (bucketOf m k) k v)) = tableKeys m := by
  have hlt := hash_bucket_lt m k hs
  rw [keysOf, flatten_set _ _ _ hlt, tableKeys, keysOf]
  conv_rhs => rw [flatten_decomp m._entry_table (_hash_long_long m._table_size k) hlt]
  simp only [List.map_append, bucketOf, updateFirst_keys]

theorem keysOf_set_append (m : MapState) (k v : Int) (hs : Shape m) :
    (keysOf (m._entry_table.set (_hash_long_long m._table_size k)
      (bucketOf m k ++ [{ key := k, value := v }]))).Perm (tableKeys m ++ [k]) := by
  have hlt := hash_bucket_lt m k hs
  rw [keysOf, flatten_set _ _ _ hlt, tableKeys, keysOf]
  conv_rhs => rw [flatten_decomp m._entry_table (_hash_long_long m._table_size k) hlt]
  simp only [List.map_append, bucketOf, List.map_cons, List.map_nil]
  exact perm_append_snoc _ _ _ _

theorem placed_set_updateFirst (m : MapState) (k v : Int) (hs : Shape m) :
    Shape { m with _entry_table :=
                     m._entry_table.set (_hash_long_long m._table_size k)
                       (updateFirst (bucketOf m k) k v) } := by
  have hlt := hash_bucket_lt m k hs
  refine ⟨hs.size_pos, ?_, ?_⟩
  · simpa using hs.len_eq
  · intro i e he
    simp only at he ⊢
    by_cases hi : i = _hash_long_long m._table_size k
    · subst hi
      rw [getD_set_self _ _ _ _ hlt] at he
      rcases key_mem_of_mem_updateFirst _ _ _ _ he with ⟨e0, he0, hk0⟩
      have := hs.placed _ e0 he0
      rw [← hk0]
      exact this
    · rw [getD_set_ne _ _ _ _ _ (fun hc => hi hc.symm)] at he
      exact hs.placed i e he

theorem placed_set_append (m : MapState) (k v : Int) (hs : Shape m) :
    Shape { m with _entry_table :=
                     m._entry_table.set (_hash_long_long m._table_size k)
                       (bucketOf m k ++ [{ key := k, value := v }]) } := by
  have hlt := hash_bucket_lt m k hs
  refine ⟨hs.size_pos, ?_, ?_⟩
  · simpa using hs.len_eq
  · intro i e he
    simp only at he ⊢
    by_cases hi : i = _hash_long_long m._table_size k
    · subst hi
      rw [getD_set_self _ _ _ _ hlt] at he
      rcases List.mem_append.mp he with hmem | hmem
      · exact hs.placed _ e hmem
      · rcases List.mem_singleton.mp hmem with rfl
        rfl
    · rw [getD_set_ne _ _ _ _ _ (fun hc => hi hc.symm)] at he
      exact hs.placed i e he

theorem getValue?_set_updateFirst (m : MapState) (k v k' : Int) (hs : Shape m)
    (hk : chainHas (bucketOf m k) k = true) :
    getValue? { m with _entry_table :=
                         m._entry_table.set (_hash_long_long m._table_size k)
                           (updateFirst (bucketOf m k) k v) } k' =
      if k' = k then some v else getValue? m k' := by
  have hlt := hash_bucket_lt m k hs
  by_cases hk' : k' = k
  · subst hk'
    rw [if_pos rfl, getValue?_eq_find_bucket]
    simp only [bucketOf]
    rw [getD_set_self _ _ _ _ hlt]
    rw [find?_updateFirst_self _ _ _ (by simpa [bucketOf] using hk)]
    rfl
  · rw [if_neg hk', getValue?_eq_find_bucket, getValue?_eq_find_bucket]
    simp only [bucketOf]
    by_cases hh : _hash_long_long m._table_size k' = _hash_long_long m._table_size k
    · rw [hh, getD_set_self _ _ _ _ hlt]
      rw [find?_updateFirst_ne _ _ _ _ hk']
    · rw [getD_set_ne _ _ _ _ _ (fun hc => hh hc.symm)]

theorem getValue?_set_append (m : MapState) (k v k' : Int) (hs : Shape m)
    (hk : chainHas (bucketOf m k) k = false) :
    getValue? { m with _entry_table :=
                         m._entry_table.set (_hash_long_long m._table_size k)
                           (bucketOf m k ++ [{ key := k, value := v }]) } k' =
      if k' = k then some v else getValue? m k' := by
  have hlt := hash_bucket_lt m k hs
  by_cases hk' : k' = k
  · subst hk'
    rw [if_pos rfl, getValue?_eq_find_bucket]
    simp only [bucketOf]
    rw [getD_set_self _ _ _ _ hlt]
    rw [List.find?_append, find?_eq_none_of_not_chainHas _ _ (by simpa [bucketOf] using hk)]
    simp [List.find?]
  · rw [if_neg hk', getValue?_eq_find_bucket, getValue?_eq_find_bucket]
    simp only [bucketOf]
    by_cases hh : _hash_long_long m._table_size k' = _hash_long_long m._table_size k
    · rw [hh, getD_set_self _ _ _ _ hlt]
      rw [List.find?_append]
      have : List.find? (fun e => e.key == k') ([{ key := k, value := v }] : Bucket) = none := by
        simp [List.find?, beq_eq_false_iff_ne.mpr (fun hc : k = k' => hk' hc.symm)]
      rw [this]
      cases List.find? (fun e => e.key == k') (m._entry_table.getD (_hash_long_long m._table_size k) []) <;> rfl
    · rw [getD_set_ne _ _ _ _ _ (fun hc => hh hc.symm)]

/-! ### `_HASHMAP_LL_PUT` characterizations and frame lemmas -/

theorem ll_put_success_eq (m : MapState) (e : Entry) (orc rest : List Bool)
    (ho : takeAlloc orc = (true, rest)) :
    _HASHMAP_LL_PUT m e orc =
      { ret := 0, st := { m with _entry_ll := m._entry_ll ++ [e.key] }
        orc := rest, evs := [Event.allocNode true] } := by
  simp [_HASHMAP_LL_PUT, ho]

theorem ll_put_fail_eq (m : MapState) (e : Entry) (orc rest : List Bool)
    (ho : takeAlloc orc = (false, rest)) :
    _HASHMAP_LL_PUT m e orc =
      { ret := -1, st := m, orc := rest, evs := [Event.allocNode false] } := by
  simp [_HASHMAP_LL_PUT, ho]

theorem ll_put_frame (m : MapState) (e : Entry) (orc : List Bool) :
    (_HASHMAP_LL_PUT m e orc).st._table_size = m._table_size ∧
    (_HASHMAP_LL_PUT m e orc).st._num_entries = m._num_entries ∧
    (_HASHMAP_LL_PUT m e orc).st._entry_table = m._entry_table := by
  rcases ho : takeAlloc orc with ⟨b, rest⟩
  cases b
  · rw [ll_put_fail_eq m e orc rest ho]
    exact ⟨rfl, rfl, rfl⟩
  · rw [ll_put_success_eq m e orc rest ho]
    exact ⟨rfl, rfl, rfl⟩

theorem ll_put_evs (m : MapState) (e : Entry) (orc : List Bool) :
    ∀ ev ∈ (_HASHMAP_LL_PUT m e orc).evs, ∃ b, ev = Event.allocNode b := by
  rcases ho : takeAlloc orc with ⟨b, rest⟩
  cases b
  · rw [ll_put_fail_eq m e orc rest ho]
    intro ev hev
    exact ⟨false, by simpa using hev⟩
  · rw [ll_put_success_eq m e orc rest ho]
    intro ev hev
    exact ⟨true, by simpa using hev⟩

theorem table_put_frame (m : MapState) (k v : Int) (orc : List Bool) :
    (_HASHMAP_TABLE_PUT m k v orc).st._table_size = m._table_size ∧
    (_HASHMAP_TABLE_PUT m k v orc).st._num_entries = m._num_entries ∧
    (_HASHMAP_TABLE_PUT m k v orc).st._entry_ll = m._entry_ll := by
  cases hch : chainHas (bucketOf m k) k
  · rcases ho : takeAlloc orc with ⟨b, rest⟩
    cases b
    · rw [table_put_fail_eq m k v orc rest hch ho]
      exact ⟨rfl, rfl, rfl⟩
    · rw [table_put_fresh_eq m k v orc rest hch ho]
      exact ⟨rfl, rfl, rfl⟩
  · rw [table_put_update_eq m k v orc hch]
    exact ⟨rfl, rfl, rfl⟩

theorem table_put_evs (m : MapState) (k v : Int) (orc : List Bool) :
    ∀ ev ∈ (_HASHMAP_TABLE_PUT m k v orc).evs, ∃ b, ev = Event.allocEntry b := by
  cases hch : chainHas (bucketOf m k) k
  · rcases ho : takeAlloc orc with ⟨b, rest⟩
    cases b
    · rw [table_put_fail_eq m k v orc rest hch ho]
      intro ev hev
      exact ⟨false, by simpa using hev⟩
    · rw [table_put_fresh_eq m k v orc rest hch ho]
      intro ev hev
      exact ⟨true, by simpa using hev⟩
  · rw [table_put_update_eq m k v orc hch]
    intro ev hev
    cases hev

/-! ### Full specifications of the two interesting `_HASHMAP_TABLE_PUT`
paths under the all-successful oracle -/

theorem table_put_update_spec (m : MapState) (k v : Int) (orc : List Bool)
    (hs : Shape m) (hk : chainHas (bucketOf m k) k = true) :
    (_HASHMAP_TABLE_PUT m k v orc).ret = none ∧
    (_HASHMAP_TABLE_PUT m k v orc).orc = orc ∧
    (_HASHMAP_TABLE_PUT m k v orc).evs = [] ∧
    Shape (_HASHMAP_TABLE_PUT m k v orc).st ∧
    tableKeys (_HASHMAP_TABLE_PUT m k v orc).st = tableKeys m ∧
    (∀ k', getValue? (_HASHMAP_TABLE_PUT m k v orc).st k' =
      if k' = k then some v else getValue? m k') := by
  rw [table_put_update_eq m k v orc hk]
  refine ⟨rfl, rfl, rfl, placed_set_updateFirst m k v hs, ?_, ?_⟩
  · exact keysOf_set_updateFirst m k v hs
  · intro k'
    exact getValue?_set_updateFirst m k v k' hs hk

theorem table_put_fresh_spec (m : MapState) (k v : Int)
    (hs : Shape m) (hk : chainHas (bucketOf m k) k = false) :
    (_HASHMAP_TABLE_PUT m k v []).ret = some { key := k, value := v } ∧
    (_HASHMAP_TABLE_PUT m k v []).orc = [] ∧
    (_HASHMAP_TABLE_PUT m k v []).evs = [Event.allocEntry true] ∧
    Shape (_HASHMAP_TABLE_PUT m k v []).st ∧
    (tableKeys (_HASHMAP_TABLE_PUT m k v []).st).Perm (tableKeys m ++ [k]) ∧
    (∀ k', getValue? (_HASHMAP_TABLE_PUT m k v []).st k' =
      if k' = k then some v else getValue? m k') := by
  rw [table_put_fresh_eq m k v [] [] hk rfl]
  refine ⟨rfl, rfl, rfl, placed_set_append m k v hs, ?_, ?_⟩
  · exact keysOf_set_append m k v hs
  · intro k'
    exact getValue?_set_append m k v k' hs hk

/-! ### Lookup lemmas under the invariant -/

theorem getValue?_eq_none_of_not_mem (m : MapState) (k : Int)
    (h : k ∉ tableKeys m) : getValue? m k = none := by
  rw [getValue?_eq_find_bucket]
  cases hf : List.find? (fun e => e.key == k) (bucketOf m k) with
  | none => rfl
  | some e =>
    have hmem := List.mem_of_find?_eq_some hf
    have hkey := List.find?_some hf
    exact absurd
      ((keysOf_mem _ _).mpr ⟨e, mem_of_mem_getD _ _ _ hmem, by simpa using hkey⟩) h

theorem getValue?_eq_deref (m : MapState) (k : Int)
    (hs : Shape m) (hnd : (tableKeys m).Nodup) (hk : k ∈ tableKeys m) :
    getValue? m k = some (derefEntry m._entry_table k).value := by
  rcases (keysOf_mem _ _).mp hk with ⟨e, he, hek⟩
  cases hfl : m._entry_table.flatten.find? (fun e2 => e2.key == k) with
  | none =>
    rw [List.find?_eq_none] at hfl
    exact absurd (by simpa using hek) (hfl e he)
  | some e1 =>
    have he1mem := List.mem_of_find?_eq_some hfl
    have he1key : e1.key = k := by simpa using List.find?_some hfl
    have hch : chainHas (bucketOf m k) k = true :=
      (mem_tableKeys_iff_chainHas m k hs).mp hk
    cases hf2 : List.find? (fun e0 => e0.key == k) (bucketOf m k) with
    | none =>
      rw [List.find?_eq_none] at hf2
      rcases (chainHas_iff _ _).mp hch with ⟨e2, he2, he2k⟩
      exact absurd (by simpa using he2k) (hf2 e2 he2)
    | some e3 =>
      have he3mem : e3 ∈ bucketOf m k := List.mem_of_find?_eq_some hf2
      have he3key : e3.key = k := by simpa using List.find?_some hf2
      have he31 : e3 = e1 :=
        key_unique m._entry_table hnd e3 e1
          (mem_of_mem_getD _ _ _ he3mem) he1mem (he3key.trans he1key.symm)
      rw [getValue?_eq_find_bucket, hf2, derefEntry, hfl, he31]
      rfl

/-! ### Rehash loop lemmas -/

theorem rehashLoop_frame (old : List Bucket) (ks : List Int) :
    ∀ (m : MapState) (orc : List Bool),
      (rehashLoop old ks m orc).st._num_entries = m._num_entries ∧
      (rehashLoop old ks m orc).st._entry_ll = m._entry_ll ∧
      (rehashLoop old ks m orc).st._table_size = m._table_size := by
  induction ks with
  | nil =>
    intro m orc
    exact ⟨rfl, rfl, rfl⟩
  | cons k rest ih =>
    intro m orc
    have hf := table_put_frame m k (derefEntry old k).value orc
    simp only [rehashLoop]
    cases hr : (_HASHMAP_TABLE_PUT m k (derefEntry old k).value orc).ret with
    | none =>
      simp only [hr]
      exact ⟨hf.2.1, hf.2.2, hf.1⟩
    | some e =>
      simp only [hr]
      have hih := ih (_HASHMAP_TABLE_PUT m k (derefEntry old k).value orc).st
        (_HASHMAP_TABLE_PUT m k (derefEntry old k).value orc).orc
      exact ⟨hih.1.trans hf.2.1, hih.2.1.trans hf.2.2, hih.2.2.trans hf.1⟩

theorem rehashLoop_evs (old : List Bucket) (ks : List Int) :
    ∀ (m : MapState) (orc : List Bool),
      ∀ ev ∈ (rehashLoop old ks m orc).evs,
        (∃ b, ev = Event.allocEntry b) ∨ ev = Event.freeEntry := by
  induction ks with
  | nil =>
    intro m orc ev hev
    cases hev
  | cons k rest ih =>
    intro m orc
    have hevs := table_put_evs m k (derefEntry old k).value orc
    simp only [rehashLoop]
    cases hr : (_HASHMAP_TABLE_PUT m k (derefEntry old k).value orc).ret with
    | none =>
      simp only [hr]
      intro ev hev
      exact Or.inl (hevs ev hev)
    | some e =>
      simp only [hr]
      intro ev hev
      simp only [List.mem_append, List.mem_singleton] at hev
      rcases hev with (hev | hev) | hev
      · exact Or.inl (hevs ev hev)
      · exact Or.inr hev
      · exact ih (_HASHMAP_TABLE_PUT m k (derefEntry old k).value orc).st
          (_HASHMAP_TABLE_PUT m k (derefEntry old k).value orc).orc ev hev

theorem rehashLoop_ok (old : List Bucket) (ks : List Int) :
    ∀ (m : MapState), Shape m → ks.Nodup → (∀ k ∈ ks, k ∉ tableKeys m) →
      (rehashLoop old ks m []).ret = 0 ∧
      (rehashLoop old ks m []).orc = [] ∧
      Shape (rehashLoop old ks m []).st ∧
      (tableKeys (rehashLoop old ks m []).st).Perm (tableKeys m ++ ks) ∧
      (∀ k', getValue? (rehashLoop old ks m []).st k' =
        if k' ∈ ks then some (derefEntry old k').value else getValue? m k') := by
  induction ks with
  | nil =>
    intro m hs _ _
    exact ⟨rfl, rfl, hs, by simp [rehashLoop], fun k' => by simp [rehashLoop]⟩
  | cons k rest ih =>
    intro m hs hnd hfresh
    have hkm : k ∉ tableKeys m := hfresh k (List.mem_cons_self _ _)
    have hch : chainHas (bucketOf m k) k = false := by
      cases hc : chainHas (bucketOf m k) k
      · rfl
      · exact absurd ((mem_tableKeys_iff_chainHas m k hs).mpr hc) hkm
    have hspec := table_put_fresh_spec m k (derefEntry old k).value hs hch
    have hihargs :
        Shape (_HASHMAP_TABLE_PUT m k (derefEntry old k).value []).st ∧
        rest.Nodup ∧
        (∀ k2 ∈ rest, k2 ∉ tableKeys (_HASHMAP_TABLE_PUT m k (derefEntry old k).value []).st) := by
      refine ⟨hspec.2.2.2.1, (List.nodup_cons.mp hnd).2, ?_⟩
      intro k2 hk2 hk2mem
      have : k2 ∈ tableKeys m ++ [k] := (hspec.2.2.2.2.1).mem_iff.mp hk2mem
      rcases List.mem_append.mp this with hmem | hmem
      · exact hfresh k2 (List.mem_cons_of_mem _ hk2) hmem
      · exact (List.nodup_cons.mp hnd).1 (List.mem_singleton.mp hmem ▸ hk2)
    have hih := ih (_HASHMAP_TABLE_PUT m k (derefEntry old k).value []).st
      hihargs.1 hihargs.2.1 hihargs.2.2
    simp only [rehashLoop, hspec.1, hspec.2.1]
    refine ⟨hih.1, hih.2.1, hih.2.2.1, ?_, ?_⟩
    · have h1 := hih.2.2.2.1.trans ((hspec.2.2.2.2.1).append_right rest)
      simpa [List.append_assoc] using h1
    · intro k'
      rw [hih.2.2.2.2 k']
      by_cases hk' : k' ∈ rest
      · simp [hk', List.mem_cons]
      · rw [if_neg hk', hspec.2.2.2.2.2 k']
        by_cases hkk : k' = k
        · subst hkk
          simp [List.mem_cons]
        · simp [hkk, hk', List.mem_cons]

/-! ### `_HASHMAP_INCREASE_SIZE` lemmas -/

theorem getD_replicate_nil (n i : Nat) :
    (List.replicate n ([] : List α)).getD i [] = [] := by
  by_cases hi : i < n
  · rw [getD_eq_getElem _ _ _ (by simpa using hi)]
    simp
  · exact getD_eq_default _ _ _ (by simpa using Nat.le_of_not_lt hi)

theorem increase_fail_eq (m : MapState) (orc rest : List Bool)
    (ho : takeAlloc orc = (false, rest)) :
    _HASHMAP_INCREASE_SIZE m orc =
      { ret := -1, st := m, orc := rest, evs := [Event.allocTable false] } := by
  simp [_HASHMAP_INCREASE_SIZE, ho]

theorem increase_succ_eq (m : MapState) (orc rest : List Bool)
    (ho : takeAlloc orc = (true, rest)) :
    _HASHMAP_INCREASE_SIZE m orc =
      { ret := (_HASHMAP_REHASH_TABLE m._entry_table (growState m) rest).ret
        st := (_HASHMAP_REHASH_TABLE m._entry_table (growState m) rest).st
        orc := (_HASHMAP_REHASH_TABLE m._entry_table (growState m) rest).orc
        evs := Event.allocTable true ::
          ((_HASHMAP_REHASH_TABLE m._entry_table (growState m) rest).evs ++
            [Event.freeOldTable]) } := by
  simp [_HASHMAP_INCREASE_SIZE, ho, growState]

theorem increase_frame (m : MapState) (orc : List Bool) :
    (_HASHMAP_INCREASE_SIZE m orc).st._num_entries = m._num_entries ∧
    (_HASHMAP_INCREASE_SIZE m orc).st._entry_ll = m._entry_ll := by
  rcases ho : takeAlloc orc with ⟨b, rest⟩
  cases b
  · rw [increase_fail_eq m orc rest ho]
    exact ⟨rfl, rfl⟩
  · rw [increase_succ_eq m orc rest ho]
    have hf := rehashLoop_frame m._entry_table (growState m)._entry_ll (growState m) rest
    exact ⟨hf.1, hf.2.1⟩

theorem increase_size_field (m : MapState) (orc rest : List Bool)
    (ho : takeAlloc orc = (true, rest)) :
    (_HASHMAP_INCREASE_SIZE m orc).st._table_size = m._table_size * 2 := by
  rw [increase_succ_eq m orc rest ho]
  have hf := rehashLoop_frame m._entry_table (growState m)._entry_ll (growState m) rest
  exact hf.2.2

theorem WF.toShape {m : MapState} (h : WF m) : Shape m :=
  ⟨h.size_pos, h.len_eq, h.placed⟩

theorem growState_shape (m : MapState) (h : 0 < m._table_size) :
    Shape (growState m) := by
  refine ⟨?_, ?_, ?_⟩
  · simp only [growState]
    omega
  · simp [growState]
  · intro i e he
    simp only [growState] at he
    rw [getD_replicate_nil] at he
    cases he

theorem growState_keys (m : MapState) : tableKeys (growState m) = [] := by
  simp [tableKeys, growState, keysOf, flatten_replicate_nil]

theorem increase_size_ok (m : MapState) (h : WF m) :
    (_HASHMAP_INCREASE_SIZE m []).ret = 0 ∧
    (_HASHMAP_INCREASE_SIZE m []).orc = [] ∧
    WF (_HASHMAP_INCREASE_SIZE m []).st ∧
    (_HASHMAP_INCREASE_SIZE m []).st._table_size = m._table_size * 2 ∧
    (_HASHMAP_INCREASE_SIZE m []).st._num_entries = m._num_entries ∧
    (_HASHMAP_INCREASE_SIZE m []).st._entry_ll = m._entry_ll ∧
    (tableKeys (_HASHMAP_INCREASE_SIZE m []).st).Perm (tableKeys m) ∧
    (∀ k', getValue? (_HASHMAP_INCREASE_SIZE m []).st k' = getValue? m k') := by
  have hsg : Shape (growState m) := growState_shape m h.size_pos
  have hllnd : m._entry_ll.Nodup := (h.perm.symm).nodup h.nodup
  have hfresh : ∀ k ∈ m._entry_ll, k ∉ tableKeys (growState m) := by
    intro k _
    rw [growState_keys]
    simp
  have hro := rehashLoop_ok m._entry_table m._entry_ll (growState m) hsg hllnd hfresh
  have hframe := rehashLoop_frame m._entry_table m._entry_ll (growState m) []
  have hrw : _HASHMAP_REHASH_TABLE m._entry_table (growState m) [] =
      rehashLoop m._entry_table m._entry_ll (growState m) [] := rfl
  rw [increase_succ_eq m [] [] rfl, hrw]
  have hkperm : (tableKeys (rehashLoop m._entry_table m._entry_ll (growState m) []).st).Perm
      (tableKeys m) := by
    have h1 := hro.2.2.2.1
    rw [growState_keys] at h1
    simp only [List.nil_append] at h1
    exact h1.trans h.perm
  refine ⟨hro.1, hro.2.1, ?_, ?_, ?_, ?_, hkperm, ?_⟩
  · refine ⟨hro.2.2.1.size_pos, hro.2.2.1.len_eq, hro.2.2.1.placed, ?_, ?_⟩
    · exact hkperm.symm.nodup h.nodup
    · rw [hframe.2.1]
      show m._entry_ll.Perm _
      exact h.perm.trans hkperm.symm
  · exact hframe.2.2
  · exact hframe.1
  · exact hframe.2.1
  · intro k'
    rw [hro.2.2.2.2 k']
    by_cases hk' : k' ∈ m._entry_ll
    · rw [if_pos hk']
      have hmem : k' ∈ tableKeys m := h.perm.mem_iff.mp hk'
      exact (getValue?_eq_deref m k' h.toShape h.nodup hmem).symm
    · rw [if_neg hk']
      have hnm : k' ∉ tableKeys m := fun hc => hk' (h.perm.mem_iff.mpr hc)
      rw [getValue?_eq_none_of_not_mem _ _ hnm,
        getValue?_eq_none_of_not_mem (growState m) k' (by rw [growState_keys]; simp)]

/-! ### `putBody` and `HASHMAP_PUT` under the all-successful oracle -/

theorem wf_transfer (m1 m2 : MapState) (h : WF m1)
    (ht : m2._entry_table = m1._entry_table) (hsz : m2._table_size = m1._table_size)
    (hll : m2._entry_ll = m1._entry_ll) : WF m2 := by
  refine ⟨?_, ?_, ?_, ?_, ?_⟩
  · rw [hsz]
    exact h.size_pos
  · rw [ht, hsz]
    exact h.len_eq
  · intro i e he
    rw [ht] at he
    rw [hsz]
    exact h.placed i e he
  · show (keysOf m2._entry_table).Nodup
    rw [ht]
    exact h.nodup
  · show m2._entry_ll.Perm (keysOf m2._entry_table)
    rw [ht, hll]
    exact h.perm

theorem getValue?_congr (m1 m2 : MapState) (ht : m2._entry_table = m1._entry_table)
    (hsz : m2._table_size = m1._table_size) (k : Int) :
    getValue? m2 k = getValue? m1 k := by
  unfold getValue?
  rw [ht, hsz]

theorem putBody_ok (m : MapState) (k v : Int) (h : WF m) :
    (putBody m k v []).ret = 0 ∧
    (putBody m k v []).orc = [] ∧
    WF (putBody m k v []).st ∧
    (putBody m k v []).st._num_entries = m._num_entries ∧
    (putBody m k v []).st._table_size = m._table_size ∧
    (putBody m k v []).st._entry_ll =
      (if k ∈ tableKeys m then m._entry_ll else m._entry_ll ++ [k]) ∧
    (tableKeys (putBody m k v []).st).Perm
      (if k ∈ tableKeys m then tableKeys m else tableKeys m ++ [k]) ∧
    (∀ k', getValue? (putBody m k v []).st k' =
      if k' = k then some v else getValue? m k') := by
  have hframe := table_put_frame m k v []
  by_cases hmem : k ∈ tableKeys m
  · have hch : chainHas (bucketOf m k) k = true :=
      (mem_tableKeys_iff_chainHas m k h.toShape).mp hmem
    have hspec := table_put_update_spec m k v [] h.toShape hch
    have hkeys := hspec.2.2.2.2.1
    simp only [putBody, hspec.1]
    rw [if_pos hmem, if_pos hmem]
    refine ⟨trivial, hspec.2.1, ?_, hframe.2.1, hframe.1, hframe.2.2, ?_, hspec.2.2.2.2.2⟩
    · refine ⟨hspec.2.2.2.1.size_pos, hspec.2.2.2.1.len_eq, hspec.2.2.2.1.placed, ?_, ?_⟩
      · show (tableKeys (_HASHMAP_TABLE_PUT m k v []).st).Nodup
        rw [hkeys]
        exact h.nodup
      · show ((_HASHMAP_TABLE_PUT m k v []).st._entry_ll).Perm _
        rw [hframe.2.2]
        show m._entry_ll.Perm (tableKeys (_HASHMAP_TABLE_PUT m k v []).st)
        rw [hkeys]
        exact h.perm
    · rw [hkeys]
  · have hch : chainHas (bucketOf m k) k = false := by
      cases hc : chainHas (bucketOf m k) k
      · rfl
      · exact absurd ((mem_tableKeys_iff_chainHas m k h.toShape).mpr hc) hmem
    have hspec := table_put_fresh_spec m k v h.toShape hch
    have hkeys := hspec.2.2.2.2.1
    have hll := ll_put_success_eq (_HASHMAP_TABLE_PUT m k v []).st
      { key := k, value := v } [] [] rfl
    simp only [putBody, hspec.1, hspec.2.1, hll]
    rw [if_neg hmem, if_neg hmem]
    have hkeys2 : tableKeys { (_HASHMAP_TABLE_PUT m k v []).st with
        _entry_ll := (_HASHMAP_TABLE_PUT m k v []).st._entry_ll ++ [k] } =
        tableKeys (_HASHMAP_TABLE_PUT m k v []).st := rfl
    have hnodup : (tableKeys m ++ [k]).Nodup := by
      have hcons : (k :: tableKeys m).Nodup := List.nodup_cons.mpr ⟨hmem, h.nodup⟩
      exact (List.perm_append_singleton k (tableKeys m)).symm.nodup hcons
    refine ⟨by simp, trivial, ?_, hframe.2.1, hframe.1, ?_, ?_, ?_⟩
    · refine ⟨hspec.2.2.2.1.size_pos, hspec.2.2.2.1.len_eq, hspec.2.2.2.1.placed, ?_, ?_⟩
      · show (tableKeys (_HASHMAP_TABLE_PUT m k v []).st).Nodup
        exact hkeys.symm.nodup hnodup
      · show ((_HASHMAP_TABLE_PUT m k v []).st._entry_ll ++ [k]).Perm
          (tableKeys (_HASHMAP_TABLE_PUT m k v []).st)
        rw [hframe.2.2]
        exact (h.perm.append_right [k]).trans hkeys.symm
    · rw [hframe.2.2]
    · rw [hkeys2]
      exact hkeys
    · intro k'
      rw [show getValue? { (_HASHMAP_TABLE_PUT m k v []).st with
          _entry_ll := (_HASHMAP_TABLE_PUT m k v []).st._entry_ll ++ [k] } k' =
          getValue? (_HASHMAP_TABLE_PUT m k v []).st k' from rfl]
      exact hspec.2.2.2.2.2 k'

theorem put_ok (m : MapState) (k v : Int) (h : WF m) :
    (HASHMAP_PUT m k v []).ret = 0 ∧
    (HASHMAP_PUT m k v []).orc = [] ∧
    WF (HASHMAP_PUT m k v []).st ∧
    (HASHMAP_PUT m k v []).st._num_entries = m._num_entries + 1 ∧
    (HASHMAP_PUT m k v []).st._entry_ll =
      (if k ∈ tableKeys m then m._entry_ll else m._entry_ll ++ [k]) ∧
    (tableKeys (HASHMAP_PUT m k v []).st).Perm
      (if k ∈ tableKeys m then tableKeys m else tableKeys m ++ [k]) ∧
    (∀ k', getValue? (HASHMAP_PUT m k v []).st k' =
      if k' = k then some v else getValue? m k') := by
  cases hg : growthTrigger m
  · have hb := putBody_ok m k v h
    simp only [HASHMAP_PUT, hg, Bool.false_eq_true, if_false]
    refine ⟨hb.1, hb.2.1, ?_, ?_, hb.2.2.2.2.2.1, hb.2.2.2.2.2.2.1, hb.2.2.2.2.2.2.2⟩
    · exact wf_transfer (putBody m k v []).st _ hb.2.2.1 rfl rfl rfl
    · show (putBody m k v []).st._num_entries + 1 = m._num_entries + 1
      rw [hb.2.2.2.1]
  · have hgk := increase_size_ok m h
    have hb := putBody_ok (_HASHMAP_INCREASE_SIZE m []).st k v hgk.2.2.1
    have hmem_iff : k ∈ tableKeys (_HASHMAP_INCREASE_SIZE m []).st ↔ k ∈ tableKeys m :=
      hgk.2.2.2.2.2.2.1.mem_iff
    simp only [HASHMAP_PUT, hg, if_true, hgk.1, hgk.2.1]
    refine ⟨hb.1, hb.2.1, ?_, ?_, ?_, ?_, ?_⟩
    · exact wf_transfer (putBody (_HASHMAP_INCREASE_SIZE m []).st k v []).st _
        hb.2.2.1 rfl rfl rfl
    · show (putBody (_HASHMAP_INCREASE_SIZE m []).st k v []).st._num_entries + 1 =
        m._num_entries + 1
      rw [hb.2.2.2.1, hgk.2.2.2.2.1]
    · show (putBody (_HASHMAP_INCREASE_SIZE m []).st k v []).st._entry_ll = _
      rw [hb.2.2.2.2.2.1]
      by_cases hk : k ∈ tableKeys m
      · rw [if_pos (hmem_iff.mpr hk), if_pos hk, hgk.2.2.2.2.2.1]
      · rw [if_neg (fun hc => hk (hmem_iff.mp hc)), if_neg hk, hgk.2.2.2.2.2.1]
    · show (tableKeys (putBody (_HASHMAP_INCREASE_SIZE m []).st k v []).st).Perm _
      have hp := hb.2.2.2.2.2.2.1
      by_cases hk : k ∈ tableKeys m
      · rw [if_pos (hmem_iff.mpr hk)] at hp
        rw [if_pos hk]
        exact hp.trans hgk.2.2.2.2.2.2.1
      · rw [if_neg (fun hc => hk (hmem_iff.mp hc))] at hp
        rw [if_neg hk]
        exact hp.trans (hgk.2.2.2.2.2.2.1.append_right [k])
    · intro k'
      show getValue? (putBody (_HASHMAP_INCREASE_SIZE m []).st k v []).st k' = _
      rw [hb.2.2.2.2.2.2.2 k', hgk.2.2.2.2.2.2.2 k']

/-! ### The initial state and runs of operations -/

theorem initSt_table : initSt._entry_table = List.replicate _DEFAULT_TABLE_SIZE [] := rfl

theorem initSt_keys : tableKeys initSt = [] := by
  show keysOf initSt._entry_table = []
  rw [initSt_table]
  simp [keysOf, flatten_replicate_nil]

theorem initSt_wf : WF initSt := by
  refine ⟨?_, ?_, ?_, ?_, ?_⟩
  · show 0 < _DEFAULT_TABLE_SIZE
    norm_num [_DEFAULT_TABLE_SIZE]
  · show initSt._entry_table.length = initSt._table_size
    rw [initSt_table]
    simp
    rfl
  · intro i e he
    rw [show initSt._entry_table.getD i [] = [] by rw [initSt_table]; exact getD_replicate_nil _ _] at he
    cases he
  · rw [show tableKeys initSt = [] from initSt_keys]
    exact List.nodup_nil
  · show initSt._entry_ll.Perm (tableKeys initSt)
    rw [initSt_keys]
    exact List.Perm.refl _

theorem getValue?_initSt (k : Int) : getValue? initSt k = none :=
  getValue?_eq_none_of_not_mem _ _ (by rw [initSt_keys]; simp)

theorem get_eq_getValue? (r : Int) (m : MapState) (k : Int) :
    HASHMAP_GET r m k =
      (match getValue? m k with
        | some v => (true, v)
        | none => (false, r)) := by
  unfold HASHMAP_GET getValue?
  simp only [List.getD_eq_getElem?_getD]
  cases hf : (m._entry_table[_hash_long_long m._table_size k]?.getD []).find?
      (fun e => e.key == k) <;> simp [hf]

theorem runPutsFrom_ok (ops : List (Int × Int)) :
    ∀ (m : MapState), WF m →
      WF (runPutsFrom m ops) ∧
      (∀ k, getValue? (runPutsFrom m ops) k = lastValueFrom (getValue? m k) ops k) := by
  induction ops with
  | nil =>
    intro m h
    exact ⟨h, fun k => rfl⟩
  | cons p rest ih =>
    intro m h
    have hp := put_ok m p.1 p.2 h
    have hih := ih (HASHMAP_PUT m p.1 p.2 []).st hp.2.2.1
    refine ⟨hih.1, ?_⟩
    intro k
    rw [show runPutsFrom m (p :: rest) =
      runPutsFrom (HASHMAP_PUT m p.1 p.2 []).st rest from rfl]
    rw [hih.2 k]
    rw [show lastValueFrom (getValue? m k) (p :: rest) k =
      lastValueFrom (if p.1 = k then some p.2 else getValue? m k) rest k from rfl]
    have hbase : getValue? (HASHMAP_PUT m p.1 p.2 []).st k =
        (if p.1 = k then some p.2 else getValue? m k) := by
      rw [hp.2.2.2.2.2.2 k]
      by_cases hkk : k = p.1
      · rw [if_pos hkk, if_pos hkk.symm]
      · rw [if_neg hkk, if_neg (fun hc => hkk hc.symm)]
    rw [hbase]

theorem runOpsFrom_ok (ops : List Op) :
    ∀ (m : MapState), WF m →
      WF (runOpsFrom m ops) ∧
      (runOpsFrom m ops)._num_entries = m._num_entries + countPuts ops := by
  induction ops with
  | nil =>
    intro m h
    exact ⟨h, by simp [runOpsFrom, countPuts]⟩
  | cons op rest ih =>
    intro m h
    cases op with
    | put k v =>
      have hp := put_ok m k v h
      have hih := ih (HASHMAP_PUT m k v []).st hp.2.2.1
      refine ⟨hih.1, ?_⟩
      rw [show runOpsFrom m (Op.put k v :: rest) =
        runOpsFrom (HASHMAP_PUT m k v []).st rest from rfl]
      rw [hih.2, hp.2.2.2.1]
      show m._num_entries + 1 + countPuts rest = m._num_entries + (countPuts rest + 1)
      omega
    | get k =>
      have hih := ih m h
      refine ⟨hih.1, ?_⟩
      rw [show runOpsFrom m (Op.get k :: rest) = runOpsFrom m rest from rfl, hih.2]
      rfl

theorem runPutsFrom_ll (ops : List (Int × Int)) :
    ∀ (m : MapState), WF m → (ops.map Prod.fst).Nodup →
      (∀ p ∈ ops, p.1 ∉ tableKeys m) →
      (runPutsFrom m ops)._entry_ll = m._entry_ll ++ ops.map Prod.fst := by
  induction ops with
  | nil =>
    intro m _ _ _
    simp [runPutsFrom]
  | cons p rest ih =>
    intro m h hnd hfresh
    have hp := put_ok m p.1 p.2 h
    have hmem : p.1 ∉ tableKeys m := hfresh p (List.mem_cons_self _ _)
    have hll : (HASHMAP_PUT m p.1 p.2 []).st._entry_ll = m._entry_ll ++ [p.1] := by
      rw [hp.2.2.2.2.1, if_neg hmem]
    have hkeysperm := hp.2.2.2.2.2.1
    rw [if_neg hmem] at hkeysperm
    have hndc : p.1 ∉ rest.map Prod.fst ∧ (rest.map Prod.fst).Nodup :=
      List.nodup_cons.mp (by simpa using hnd)
    have hfresh' : ∀ q ∈ rest, q.1 ∉ tableKeys (HASHMAP_PUT m p.1 p.2 []).st := by
      intro q hq hqc
      have hsplit : q.1 ∈ tableKeys m ++ [p.1] := hkeysperm.mem_iff.mp hqc
      rcases List.mem_append.mp hsplit with hx | hx
      · exact hfresh q (List.mem_cons_of_mem _ hq) hx
      · have hq1 : q.1 = p.1 := List.mem_singleton.mp hx
        exact hndc.1 (hq1 ▸ List.mem_map_of_mem Prod.fst hq)
    have hih := ih (HASHMAP_PUT m p.1 p.2 []).st hp.2.2.1 hndc.2 hfresh'
    rw [show runPutsFrom m (p :: rest) =
      runPutsFrom (HASHMAP_PUT m p.1 p.2 []).st rest from rfl, hih, hll]
    simp

theorem wf_counts (m : MapState) (h : WF m) :
    m._entry_ll.length = tableCount m := by
  rw [h.perm.length_eq]
  show (keysOf m._entry_table).length = _
  rw [keysOf, List.length_map]
  rfl

/-! ### Frame and event lemmas over arbitrary allocation oracles -/

theorem putBody_frame (m : MapState) (k v : Int) (orc : List Bool) :
    (putBody m k v orc).st._num_entries = m._num_entries ∧
    (putBody m k v orc).st._table_size = m._table_size := by
  have hf := table_put_frame m k v orc
  simp only [putBody]
  cases hr : (_HASHMAP_TABLE_PUT m k v orc).ret with
  | none =>
    simp only [hr]
    exact ⟨hf.2.1, hf.1⟩
  | some e =>
    simp only [hr]
    have hl := ll_put_frame (_HASHMAP_TABLE_PUT m k v orc).st e
      (_HASHMAP_TABLE_PUT m k v orc).orc
    exact ⟨hl.2.1.trans hf.2.1, hl.1.trans hf.1⟩

theorem putBody_evs (m : MapState) (k v : Int) (orc : List Bool) :
    ∀ ev ∈ (putBody m k v orc).evs,
      (∃ b, ev = Event.allocEntry b) ∨ (∃ b, ev = Event.allocNode b) := by
  have hevs := table_put_evs m k v orc
  simp only [putBody]
  cases hr : (_HASHMAP_TABLE_PUT m k v orc).ret with
  | none =>
    simp only [hr]
    intro ev hev
    exact Or.inl (hevs ev hev)
  | some e =>
    simp only [hr]
    intro ev hev
    rcases List.mem_append.mp hev with hx | hx
    · exact Or.inl (hevs ev hx)
    · exact Or.inr (ll_put_evs (_HASHMAP_TABLE_PUT m k v orc).st e
        (_HASHMAP_TABLE_PUT m k v orc).orc ev hx)

theorem increase_evs_allocTable (m : MapState) (orc : List Bool) :
    ∃ b, Event.allocTable b ∈ (_HASHMAP_INCREASE_SIZE m orc).evs := by
  rcases ho : takeAlloc orc with ⟨b0, rest⟩
  cases b0
  · rw [increase_fail_eq m orc rest ho]
    exact ⟨false, by simp⟩
  · rw [increase_succ_eq m orc rest ho]
    exact ⟨true, by simp⟩

theorem put_num_increment (m : MapState) (k v : Int) (orc : List Bool) :
    (HASHMAP_PUT m k v orc).st._num_entries = m._num_entries + 1 := by
  cases hg : growthTrigger m
  · simp only [HASHMAP_PUT, hg, Bool.false_eq_true, if_false]
    show (putBody m k v orc).st._num_entries + 1 = m._num_entries + 1
    rw [(putBody_frame m k v orc).1]
  · simp only [HASHMAP_PUT, hg, if_true]
    by_cases hret : (_HASHMAP_INCREASE_SIZE m orc).ret = 0
    · rw [if_pos hret]
      show (putBody (_HASHMAP_INCREASE_SIZE m orc).st k v
          (_HASHMAP_INCREASE_SIZE m orc).orc).st._num_entries + 1 = m._num_entries + 1
      rw [(putBody_frame _ _ _ _).1, (increase_frame m orc).1]
    · rw [if_neg hret]
      show (_HASHMAP_INCREASE_SIZE m orc).st._num_entries + 1 = m._num_entries + 1
      rw [(increase_frame m orc).1]

theorem put_size_after_growth (m : MapState) (k v : Int) (orc rest : List Bool)
    (hg : growthTrigger m = true) (ho : takeAlloc orc = (true, rest)) :
    (HASHMAP_PUT m k v orc).st._table_size = m._table_size * 2 := by
  have hsz := increase_size_field m orc rest ho
  simp only [HASHMAP_PUT, hg, if_true]
  by_cases hret : (_HASHMAP_INCREASE_SIZE m orc).ret = 0
  · rw [if_pos hret]
    show (putBody (_HASHMAP_INCREASE_SIZE m orc).st k v
        (_HASHMAP_INCREASE_SIZE m orc).orc).st._table_size = m._table_size * 2
    rw [(putBody_frame _ _ _ _).2, hsz]
  · rw [if_neg hret]
    exact hsz

theorem put_evs_no_growth (m : MapState) (k v : Int) (orc : List Bool)
    (hg : growthTrigger m = false) :
    (HASHMAP_PUT m k v orc).evs = (putBody m k v orc).evs := by
  simp only [HASHMAP_PUT, hg, Bool.false_eq_true, if_false]

theorem put_evs_growth (m : MapState) (k v : Int) (orc : List Bool)
    (hg : growthTrigger m = true) :
    (∃ b, Event.allocTable b ∈ (HASHMAP_PUT m k v orc).evs) := by
  rcases increase_evs_allocTable m orc with ⟨b, hb⟩
  simp only [HASHMAP_PUT, hg, if_true]
  by_cases hret : (_HASHMAP_INCREASE_SIZE m orc).ret = 0
  · rw [if_pos hret]
    exact ⟨b, List.mem_append.mpr (Or.inl hb)⟩
  · rw [if_neg hret]
    exact ⟨b, hb⟩

/-! ### Claim theorems -/

/-- C1: for every sequence of puts on a freshly initialised hashmap, run
with the all-successful allocation oracle (each put succeeds and no
growth fails), followed by a get for a key `k` that was put, the get
returns `true` and stores in the result the value of the most recent put
whose key was `k`. -/
theorem C1_get_returns_most_recent_put (ops : List (Int × Int)) (k v r : Int)
    (h : lastValue ops k = some v) :
    HASHMAP_GET r (runPuts ops) k = (true, v) := by
  have hrun := runPutsFrom_ok ops initSt initSt_wf
  have hval : getValue? (runPuts ops) k = some v := by
    have h2 := hrun.2 k
    rw [getValue?_initSt] at h2
    rw [show runPuts ops = runPutsFrom initSt ops from rfl, h2]
    exact h
  rw [get_eq_getValue?, hval]

/-- Witness for C1: three puts, the last of which overwrites key 1. -/
theorem C1_witness :
    lastValue [(1, 10), (2, 20), (1, 30)] 1 = some 30 ∧
    HASHMAP_GET 0 (runPuts [(1, 10), (2, 20), (1, 30)]) 1 = (true, 30) :=
  ⟨by decide,
    C1_get_returns_most_recent_put [(1, 10), (2, 20), (1, 30)] 1 30 0 (by decide)⟩

/-- C2 counterexample: with one entry to rehash and the oracle making the
new-table `calloc` succeed but the rehash re-insertion `calloc` fail, the
rehash loop fails (return value -1) and the old table is freed all the
same — `free(_old_table)` on line 425 of `_hashmap.h` runs
unconditionally once the new table was allocated, contradicting the
claim that a rehash failure leaves the old table unfreed. -/
theorem C2_counterexample :
    (_HASHMAP_INCREASE_SIZE mOneEntry [true, false]).ret = -1 ∧
    Event.freeOldTable ∈ (_HASHMAP_INCREASE_SIZE mOneEntry [true, false]).evs ∧
    (_HASHMAP_INCREASE_SIZE mOneEntry [true, false]).evs =
      [Event.allocTable true, Event.allocEntry false, Event.freeOldTable] := by
  refine ⟨by decide, by decide, by decide⟩

/-- C2 amended: during growth the old bucket table is freed only after
the rehash loop over the entry-order list has terminated (never from
inside the loop), but it is freed whether the rehash loop succeeded or
failed; it stays unfreed only when the allocation of the new table
itself failed. -/
theorem C2_old_table_freed_after_loop (m : MapState) (orc : List Bool) :
    ((takeAlloc orc).1 = true →
      ∃ mid, (_HASHMAP_INCREASE_SIZE m orc).evs =
          Event.allocTable true :: (mid ++ [Event.freeOldTable]) ∧
        Event.freeOldTable ∉ mid) ∧
    ((takeAlloc orc).1 = false →
      Event.freeOldTable ∉ (_HASHMAP_INCREASE_SIZE m orc).evs) := by
  rcases ho : takeAlloc orc with ⟨b0, rest⟩
  cases b0
  · constructor
    · intro h
      simp at h
    · intro _
      rw [increase_fail_eq m orc rest ho]
      simp
  · constructor
    · intro _
      rw [increase_succ_eq m orc rest ho]
      refine ⟨(_HASHMAP_REHASH_TABLE m._entry_table (growState m) rest).evs, rfl, ?_⟩
      intro hmem
      rcases rehashLoop_evs m._entry_table (growState m)._entry_ll (growState m) rest
          Event.freeOldTable hmem with ⟨b, hb⟩ | hb
      · simp at hb
      · simp at hb
    · intro h
      simp at h

/-- Witness for C2's amended statement at the concrete failing rehash. -/
theorem C2_witness :
    ∃ mid, (_HASHMAP_INCREASE_SIZE mOneEntry [true, false]).evs =
        Event.allocTable true :: (mid ++ [Event.freeOldTable]) ∧
      Event.freeOldTable ∉ mid :=
  (C2_old_table_freed_after_loop mOneEntry [true, false]).1 (by decide)

/-- C3 counterexample: two puts of the same key 0 leave the counter at 2
while both the entry-order list and the bucket chains hold one entry —
`_num_entries++` on line 156 of `hashmap.h` also counts the
update-in-place. -/
theorem C3_counterexample :
    (runOps [Op.put 0 1, Op.put 0 2])._num_entries = 2 ∧
    (runOps [Op.put 0 1, Op.put 0 2])._entry_ll.length = 1 ∧
    tableCount (runOps [Op.put 0 1, Op.put 0 2]) = 1 := by
  refine ⟨by decide, by decide, by decide⟩

/-- C3 amended: in every state reachable from the initialised empty map
by puts and gets with all allocations succeeding, the number of
entry-order list nodes equals the number of entries reachable by walking
every bucket chain; the stored entry count field instead equals the
number of put calls performed, which exceeds that shared value as soon
as a key is put twice. -/
theorem C3_ll_matches_table_count_counts_puts (ops : List Op) :
    (runOps ops)._entry_ll.length = tableCount (runOps ops) ∧
    (runOps ops)._num_entries = countPuts ops := by
  have h := runOpsFrom_ok ops initSt initSt_wf
  refine ⟨wf_counts _ h.1, ?_⟩
  rw [show runOps ops = runOpsFrom initSt ops from rfl, h.2]
  show 0 + countPuts ops = countPuts ops
  exact Nat.zero_add _

/-- C4: a put for a key `k` already present in a well-formed map leaves
the entry-order list untouched (no second list node for `k`), keeps
exactly one live entry with key `k`, replaces that entry's value in
place, adds no entry to any chain, and — whenever the put does not
trigger growth — performs no allocation at all. -/
theorem C4_second_put_in_place (m : MapState) (k v : Int)
    (h : WF m) (hk : k ∈ tableKeys m) :
    (HASHMAP_PUT m k v []).st._entry_ll = m._entry_ll ∧
    countKey (HASHMAP_PUT m k v []).st k = 1 ∧
    getValue? (HASHMAP_PUT m k v []).st k = some v ∧
    (tableKeys (HASHMAP_PUT m k v []).st).Perm (tableKeys m) ∧
    (growthTrigger m = false → (HASHMAP_PUT m k v []).evs = []) := by
  have hp := put_ok m k v h
  have hperm := hp.2.2.2.2.2.1
  rw [if_pos hk] at hperm
  refine ⟨?_, ?_, ?_, hperm, ?_⟩
  · rw [hp.2.2.2.2.1, if_pos hk]
  · show (tableKeys (HASHMAP_PUT m k v []).st).count k = 1
    rw [hperm.count_eq]
    exact List.count_eq_one_of_mem h.nodup hk
  · rw [hp.2.2.2.2.2.2 k, if_pos rfl]
  · intro hg
    have hch := (mem_tableKeys_iff_chainHas m k h.toShape).mp hk
    have hspec := table_put_update_spec m k v [] h.toShape hch
    simp only [HASHMAP_PUT, hg, Bool.false_eq_true, if_false, putBody, hspec.1,
      hspec.2.2.1]

/-- Witness for C4: put key 7, then put it again with a new value. -/
theorem C4_witness :
    countKey (HASHMAP_PUT (runPuts [(7, 1)]) 7 2 []).st 7 = 1 ∧
    getValue? (HASHMAP_PUT (runPuts [(7, 1)]) 7 2 []).st 7 = some 2 ∧
    (HASHMAP_PUT (runPuts [(7, 1)]) 7 2 []).st._entry_ll = (runPuts [(7, 1)])._entry_ll := by
  have hwf : WF (runPuts [(7, 1)]) := (runPutsFrom_ok [(7, 1)] initSt initSt_wf).1
  have hmem : (7 : Int) ∈ tableKeys (runPuts [(7, 1)]) := by decide
  have hc := C4_second_put_in_place (runPuts [(7, 1)]) 7 2 hwf hmem
  exact ⟨hc.2.1, hc.2.2.1, hc.1⟩

/-- C5: a put attempts growth exactly when the load factor test at the
start of the call fires; the test is the integer form of
`live_count / capacity >= 0.75`; and whenever growth is triggered and
the new table's allocation succeeds, the capacity field afterwards is
exactly double its previous value (also when the rehash then fails,
since the doubled table stays installed). -/
theorem C5_trigger_iff_and_double (m : MapState) (k v : Int) (orc : List Bool) :
    ((∃ b, Event.allocTable b ∈ (HASHMAP_PUT m k v orc).evs) ↔ growthTrigger m = true) ∧
    (0 < m._table_size →
      (growthTrigger m = true ↔
        (3 : ℚ) / 4 ≤ (m._num_entries : ℚ) / (m._table_size : ℚ))) ∧
    (growthTrigger m = true → (takeAlloc orc).1 = true →
      (HASHMAP_PUT m k v orc).st._table_size = 2 * m._table_size) := by
  refine ⟨⟨?_, ?_⟩, ?_, ?_⟩
  · rintro ⟨b, hb⟩
    cases hg : growthTrigger m
    · rw [put_evs_no_growth m k v orc hg] at hb
      rcases putBody_evs m k v orc _ hb with ⟨b2, hb2⟩ | ⟨b2, hb2⟩ <;> simp at hb2
    · rfl
  · intro hg
    exact put_evs_growth m k v orc hg
  · intro hs
    unfold growthTrigger
    rw [decide_eq_true_iff]
    rw [div_le_div_iff₀ (by norm_num : (0:ℚ) < 4)
      (by exact_mod_cast hs : (0:ℚ) < (m._table_size : ℚ))]
    constructor
    · intro h
      have h2 : ((3 * m._table_size : ℕ) : ℚ) ≤ ((4 * m._num_entries : ℕ) : ℚ) := by
        exact_mod_cast h
      push_cast at h2
      linarith
    · intro h
      have h2 : ((3 * m._table_size : ℕ) : ℚ) ≤ ((4 * m._num_entries : ℕ) : ℚ) := by
        push_cast
        linarith
      exact_mod_cast h2
  · intro hg ho
    rcases hto : takeAlloc orc with ⟨b0, rest⟩
    have hb0 : b0 = true := by
      rw [hto] at ho
      exact ho
    subst hb0
    rw [put_size_after_growth m k v orc rest hg hto]
    exact Nat.mul_comm _ _

/-- Witness for C5 at a map whose counter stands at 12 of 15. -/
theorem C5_witness :
    (∃ b, Event.allocTable b ∈ (HASHMAP_PUT mTwelve 0 0 []).evs) ∧
    ((3 : ℚ) / 4 ≤ (mTwelve._num_entries : ℚ) / (mTwelve._table_size : ℚ)) ∧
    (HASHMAP_PUT mTwelve 0 0 []).st._table_size = 2 * mTwelve._table_size := by
  have hc := C5_trigger_iff_and_double mTwelve 0 0 []
  exact ⟨hc.1.mpr (by decide), (hc.2.1 (by decide)).mp (by decide),
    hc.2.2 (by decide) (by decide)⟩

/-- C6: after puts of pairwise-distinct keys from the initialised empty
map with all allocations succeeding, the entry-order list holds, head to
tail, exactly those keys in the order they were put — one node per put,
regardless of how many growth and rehash events occurred. -/
theorem C6_ll_insertion_order (ops : List (Int × Int))
    (hnd : (ops.map Prod.fst).Nodup) :
    (runPuts ops)._entry_ll = ops.map Prod.fst ∧
    (runPuts ops)._entry_ll.length = ops.length := by
  have h := runPutsFrom_ll ops initSt initSt_wf hnd
    (by intro p _; rw [initSt_keys]; simp)
  rw [show runPuts ops = runPutsFrom initSt ops from rfl, h,
    show initSt._entry_ll = [] from rfl]
  constructor
  · simp
  · simp

/-- Witness for C6: 13 distinct keys, enough to force one growth (the
13th put starts at 12 of 15 entries, so the table doubles to 30). -/
theorem C6_witness :
    ((((List.range 13).map (fun i => ((i : Int), (i : Int)))).map Prod.fst).Nodup) ∧
    (runPuts ((List.range 13).map (fun i => ((i : Int), (i : Int)))))._entry_ll =
      ((List.range 13).map (fun i => ((i : Int), (i : Int)))).map Prod.fst ∧
    (runPuts ((List.range 13).map (fun i => ((i : Int), (i : Int)))))._table_size = 30 := by
  have hnd : (((List.range 13).map (fun i => ((i : Int), (i : Int)))).map Prod.fst).Nodup := by
    decide
  exact ⟨hnd, (C6_ll_insertion_order _ hnd).1, by decide⟩

/-- C7: evaluation of the two allocation-failure paths of a put of a new
key on the freshly initialised map.  When the `Entry` `calloc` fails,
the put returns 0 (success) though nothing was stored and the counter
was still incremented; when the list-node `calloc` fails instead, the
put returns -1 but the freshly inserted entry stays in the bucket chain
(with no matching list node) and the counter is still incremented —
in both cases contradicting the claim (and `HASHMAP_PUT`'s own doc
comment, which promises -1 on allocation failure and describes the
failure as leaving prior state intact). -/
theorem C7_alloc_failure_eval :
    ((HASHMAP_PUT initSt 0 0 [false]).ret = 0 ∧
      tableCount (HASHMAP_PUT initSt 0 0 [false]).st = 0 ∧
      (HASHMAP_PUT initSt 0 0 [false]).st._num_entries = 1) ∧
    ((HASHMAP_PUT initSt 0 0 [true, false]).ret = -1 ∧
      tableCount (HASHMAP_PUT initSt 0 0 [true, false]).st = 1 ∧
      (HASHMAP_PUT initSt 0 0 [true, false]).st._entry_ll = [] ∧
      (HASHMAP_PUT initSt 0 0 [true, false]).st._num_entries = 1) := by
  exact ⟨⟨by decide, by decide, by decide⟩, by decide, by decide, by decide, by decide⟩

/-- C8: every `HASHMAP_PUT` call increments the stored entry counter by
exactly one — update-in-place, fresh insertion, growth and every
allocation-failure path alike (`(m)->_num_entries++` on line 156 runs
unconditionally). -/
theorem C8_num_entries_always_incremented (m : MapState) (k v : Int) (orc : List Bool) :
    (HASHMAP_PUT m k v orc).st._num_entries = m._num_entries + 1 :=
  put_num_increment m k v orc

/-- C9 counterexample: at the negative key -1 with capacity 15 the code
computes bucket index 0 — inside the range `[0, 15)` — and not the
signed (truncated) remainder -1 that the claim says is taken as-is.
With 64-bit `size_t`, C's usual arithmetic conversions turn
`val % table_size` into an unsigned operation. -/
theorem C9_counterexample :
    _hash_long_long 15 (-1) = 0 ∧
    Int.tmod (-1) 15 = -1 ∧
    _hash_long_long 15 (-1) < 15 := by
  exact ⟨by decide, by decide, by decide⟩

/-- C9 amended: for integral keys the key is first converted to the
unsigned 64-bit `size_t` (negative keys wrap modulo `2 ^ 64`) and only
then reduced modulo the capacity, so for every key and every positive
capacity the computed bucket index lies in `[0, capacity)`; no negative
or out-of-range index ever arises. -/
theorem C9_index_always_in_range (table_size : Nat) (val : Int)
    (h : 0 < table_size) :
    _hash_long_long table_size val < table_size :=
  hash_lt table_size val h

/-- Witness for C9's amended statement at the negative key -1. -/
theorem C9_witness : _hash_long_long 15 (-1) < 15 :=
  C9_index_always_in_range 15 (-1) (by decide)

/-- C10: a get for a key absent from the whole table returns `false` and
leaves the caller's result location unchanged; and whenever a get
returns `false`, the result location is unchanged — it is written only
on a `true` return. -/
theorem C10_get_miss_leaves_result (m : MapState) (k r : Int) :
    (k ∉ tableKeys m → HASHMAP_GET r m k = (false, r)) ∧
    ((HASHMAP_GET r m k).1 = false → (HASHMAP_GET r m k).2 = r) := by
  constructor
  · intro hk
    rw [get_eq_getValue?, getValue?_eq_none_of_not_mem m k hk]
  · intro h1
    rw [get_eq_getValue?] at h1 ⊢
    cases hv : getValue? m k with
    | none => rfl
    | some v =>
      rw [hv] at h1
      simp at h1

/-- Witness for C10: key 7 on the freshly initialised map, with 42 as the
prior contents of the result location. -/
theorem C10_witness :
    (7 : Int) ∉ tableKeys initSt ∧ HASHMAP_GET 42 initSt 7 = (false, 42) := by
  have h7 : (7 : Int) ∉ tableKeys initSt := by decide
  exact ⟨h7, (C10_get_miss_leaves_result initSt 7 42).1 h7⟩
